import Mathlib

/-!
Verification development for the RS (Relative Strength) ranking engine
implemented in `rs_ranking.py`.

The numeric code is embedded shallowly over `ℚ` (the Python source computes
with IEEE doubles; all inputs used in concrete evaluations below are chosen so
that the rational and floating-point runs agree). `None` propagation is
modelled with `Option`, and the two fatal paths (a `raise`, or an uncaught
library exception) are modelled with `Except String`.
-/

deriving instance DecidableEq for Except

namespace RSCalc

/-- Embeds `quarters_perf(prices, days_per_quarter)` (rs_ranking.py lines
22-54): the four trailing quarter-over-quarter percentage returns, most
recent first, or `none` when the history is too short or an anchor price is
not strictly positive. -/
def quarters_perf (prices : List ℚ) (days_per_quarter : ℕ) : Option (List ℚ) :=
  if prices.length < days_per_quarter * 4 then none
  else
    let n : ℤ := prices.length
    let q : ℤ := days_per_quarter
    let indices : List ℤ := [n - 1, n - q - 1, n - 2 * q - 1, n - 3 * q - 1, n - 4 * q - 1]
    if indices.any (fun idx => idx < 0) then none
    else
      let get : ℤ → ℚ := fun idx => prices.getD idx.toNat 0
      let step : ℕ → Option ℚ := fun i =>
        let start_price := get (indices.getD (i + 1) 0)
        let end_price := get (indices.getD i 0)
        if 0 < start_price then some ((end_price / start_price - 1) * 100) else none
      match step 0, step 1, step 2, step 3 with
      | some a, some b, some c, some d => some [a, b, c, d]
      | _, _, _, _ => none

/-- Embeds `strength(quarters)` (lines 56-68): weighted annual performance,
weights `[0.4, 0.2, 0.2, 0.2]` applied positionally, `none` if the input is
`none` or does not hold exactly four returns. -/
def strength (quarters : Option (List ℚ)) : Option ℚ :=
  match quarters with
  | none => none
  | some qs =>
      if qs.length ≠ 4 then none
      else
        let weights : List ℚ := [2/5, 1/5, 1/5, 1/5]
        some (((qs.zip weights).map (fun p => p.1 * p.2)).sum)

/-- Embeds `relative_strength(stock_strength, reference_strength)` (lines
70-83): `(stock / reference) * 100`, with `none` on a `none` input or a zero
reference strength. -/
def relative_strength (stock_strength reference_strength : Option ℚ) : Option ℚ :=
  match stock_strength, reference_strength with
  | some s, some r => if r = 0 then none else some (s / r * 100)
  | _, _ => none

/-- Embeds `calculate_rs_at_offset(prices, offset)` (lines 85-104): trims the
last `offset` bars (requiring `offset < len`), then computes the weighted
strength of the trailing four quarters with the default 63 days per quarter. -/
def calculate_rs_at_offset (prices : List ℚ) (offset : ℕ) : Option ℚ :=
  if 0 < offset then
    if prices.length ≤ offset then none
    else strength (quarters_perf (prices.take (prices.length - offset)) 63)
  else strength (quarters_perf prices 63)

/-- The fixed offset table of `calculate_rs_multi_period` (lines 110-117),
declaration order preserved. -/
def periods : List (String × ℕ) :=
  [("current", 0), ("1w_ago", 5), ("1m_ago", 21), ("3m_ago", 63), ("6m_ago", 126), ("1y_ago", 252)]

/-- One instrument of the input dataset: ticker, descriptive fields and the
chronological close-price series (the engine only reads `close`). -/
structure Stock where
  ticker : String
  sector : String
  industry : String
  market_cap : ℚ
  exchange : String
  prices : List ℚ
deriving DecidableEq

/-- One row of the scorer output: the instrument's descriptive fields plus
its RS value per offset, aligned with `periods` (index 0 = `current`). -/
structure RSRecord where
  ticker : String
  sector : String
  industry : String
  market_cap : ℚ
  exchange : String
  rs : List (Option ℚ)
deriving DecidableEq

/-- The `valid_periods` counter of the per-stock loop (lines 173-187): it is
incremented exactly when the benchmark has a stored strength for the offset
and the stock's own strength is computable — even when the resulting RS is
`none` because the benchmark strength is zero.  The code's membership test
`period_name not in ref_strengths` is modelled by `Option.isSome` of the
benchmark strength, which is equivalent because the period names are
pairwise distinct. -/
def validPairs (refPrices stockPrices : List ℚ) : ℕ :=
  periods.countP (fun p =>
    (calculate_rs_at_offset refPrices p.2).isSome &&
    (calculate_rs_at_offset stockPrices p.2).isSome)

/-- The per-offset RS values stored in `rs_dict` (lines 174-187), aligned
with `periods`. -/
def rsValues (refPrices stockPrices : List ℚ) : List (Option ℚ) :=
  periods.map (fun p =>
    match calculate_rs_at_offset refPrices p.2 with
    | none => none
    | some refStr =>
        match calculate_rs_at_offset stockPrices p.2 with
        | none => none
        | some stockStr => relative_strength (some stockStr) (some refStr))

/-- The body of the per-stock loop (lines 152-193): builds the RS record and
keeps it only when the current RS is present and `valid_periods >= 3`. -/
def processStock (refPrices : List ℚ) (s : Stock) : Option RSRecord :=
  let vals := rsValues refPrices s.prices
  if (vals.headD none).isSome && decide (3 ≤ validPairs refPrices s.prices) then
    some { ticker := s.ticker, sector := s.sector, industry := s.industry,
           market_cap := s.market_cap, exchange := s.exchange, rs := vals }
  else none

def benchmarkMissingMsg : String := "reference data missing"

def benchmarkFailedMsg : String := "reference strength computation failed"

/-- Embeds `calculate_rs_multi_period(stock_data, reference_ticker)` (lines
106-203).  The two `raise ValueError` paths become `Except.error`; the
benchmark itself is skipped; every other stock is kept or silently dropped
by `processStock`. -/
def calculate_rs_multi_period (stock_data : List Stock) (reference_ticker : String) :
    Except String (List RSRecord × List (String × ℕ)) :=
  match stock_data.find? (fun s => s.ticker = reference_ticker) with
  | none => .error benchmarkMissingMsg
  | some reference_data =>
      let refPrices := reference_data.prices
      if periods.all (fun p => (calculate_rs_at_offset refPrices p.2).isNone) then
        .error benchmarkFailedMsg
      else
        .ok (stock_data.filterMap
              (fun s => if s.ticker = reference_ticker then none
                        else processStock refPrices s),
             periods)

/-- The valid (non-`none`) RS values of column `i`, in row order — the
series selected by `valid_mask` in lines 220-224. -/
def valsAt (rows : List RSRecord) (i : ℕ) : List ℚ :=
  rows.filterMap (fun r => r.rs.getD i none)

/-- `rank(method='min', ascending=True)` of value `v` within `vals`: one
plus the number of strictly smaller values. -/
def rankOf (vals : List ℚ) (v : ℚ) : ℕ :=
  1 + vals.countP (fun w => w < v)

/-- `max_rank` of line 225: the largest min-rank attained in the column. -/
def maxRank (vals : List ℚ) : ℕ :=
  (vals.map (rankOf vals)).foldr max 0

/-- Round half to even, the rounding used by `Series.round(0)` (numpy). -/
def roundHalfEven (x : ℚ) : ℤ :=
  let f := ⌊x⌋
  let frac := x - (f : ℚ)
  if frac < 1/2 then f
  else if 1/2 < frac then f + 1
  else if f % 2 = 0 then f else f + 1

/-- The percentile stored for row `r` in column `i` (line 226):
`round((rank - 1) / (max_rank - 1) * 100)` for valid rows, `NaN` (here
`none`) for the rest. -/
def percFun (rows : List RSRecord) (i : ℕ) (r : RSRecord) : Option ℤ :=
  (r.rs.getD i none).map (fun v =>
    roundHalfEven ((((rankOf (valsAt rows i) v : ℚ) - 1) /
      ((maxRank (valsAt rows i) : ℚ) - 1)) * 100))

/-- Whether column `i` survives the `.astype(int)` conversion of line 226:
an all-`none` column is skipped (line 228), and otherwise `max_rank` must
exceed 1, since `max_rank == 1` makes the formula `0/0 = NaN` and
`astype(int)` raises `ValueError` on a non-finite value. -/
def colOK (rows : List RSRecord) (i : ℕ) : Bool :=
  (valsAt rows i).isEmpty || decide (2 ≤ maxRank (valsAt rows i))

/-- A row of the ranked table: its RS record, its percentile per offset
(aligned with `periods`), and the final dense rank of line 235. -/
structure RankedRow where
  record : RSRecord
  percentiles : List (Option ℤ)
  rank : ℕ
deriving DecidableEq

/-- The sort key of line 232: the current-offset RS, with `none` mapped to
`⊥` so that missing values sort last in the descending order. -/
def currentKey (r : RSRecord) : WithBot ℚ :=
  match r.rs.getD 0 none with
  | none => ⊥
  | some v => (v : WithBot ℚ)

/-- The row order produced by `sort_values('rs_current', ascending=False,
na_position='last')`: `a` may precede `b` iff `b`'s key is at most `a`'s. -/
def sortRel (a b : RSRecord × List (Option ℤ)) : Prop :=
  currentKey b.1 ≤ currentKey a.1

instance : DecidableRel sortRel := fun a b =>
  inferInstanceAs (Decidable (currentKey b.1 ≤ currentKey a.1))

instance : IsTotal (RSRecord × List (Option ℤ)) sortRel :=
  ⟨fun a b => le_total (currentKey b.1) (currentKey a.1)⟩

instance : IsTrans (RSRecord × List (Option ℤ)) sortRel :=
  ⟨fun _ _ _ hab hbc => le_trans hbc hab⟩

/-- Each row paired with its percentile list, before sorting. -/
def baseRows (rows : List RSRecord) : List (RSRecord × List (Option ℤ)) :=
  rows.map (fun r => (r, (List.range periods.length).map (fun i => percFun rows i r)))

/-- `df['rank'] = range(1, len(df) + 1)` (line 235): dense ranks assigned
top to bottom after the sort. -/
def assignRanks : ℕ → List (RSRecord × List (Option ℤ)) → List RankedRow
  | _, [] => []
  | k, p :: rest => ⟨p.1, p.2, k⟩ :: assignRanks (k + 1) rest

def emptyTableMsg : String := "KeyError: rs_current"

def nanConvertMsg : String := "ValueError: cannot convert non-finite values to integer"

/-- Embeds `calculate_percentiles_multi_period(rs_results, periods)` (lines
205-239).  An empty input produces an empty `DataFrame` with no columns, so
the sort of line 232 raises `KeyError`; a nonempty column whose values are
all equal has `max_rank == 1`, so line 226 computes `0/0 = NaN` and
`astype(int)` raises `ValueError`.  Otherwise the table is sorted on the
current RS (descending, the sort modelled as stable on that single key) and
dense ranks are assigned. -/
def calculate_percentiles (rows : List RSRecord) : Except String (List RankedRow) :=
  if rows.isEmpty then .error emptyTableMsg
  else if (List.range periods.length).all (fun i => colOK rows i) then
    .ok (assignRanks 1 (List.insertionSort sortRel (baseRows rows)))
  else .error nanConvertMsg

/-- The filter predicate of line 321: `percentile_current >= min_percentile`
(`NaN`, i.e. `none`, compares false). -/
def passesMin (minP : ℤ) (row : RankedRow) : Bool :=
  match row.percentiles.getD 0 none with
  | some p => minP ≤ p
  | none => false

/-- `df[df['percentile_current'] >= min_percentile]` (line 321). -/
def filterMin (t : List RankedRow) (minP : ℤ) : List RankedRow :=
  t.filter (passesMin minP)

/-- The engine part of `main()` (lines 298-325): score, rank, then filter
with `config.get('MIN_PERCENTILE', 70)`. -/
def runRanking (stock_data : List Stock) (reference_ticker : String)
    (minPercentileCfg : Option ℤ) : Except String (List RankedRow) := do
  let pr ← calculate_rs_multi_period stock_data reference_ticker
  let t ← calculate_percentiles pr.1
  pure (filterMin t (minPercentileCfg.getD 70))

/-- The benchmark's close prices as located by lines 122-133 (empty when the
benchmark is absent; only used under a hypothesis that it is present). -/
def refPricesOf (stock_data : List Stock) (reference_ticker : String) : List ℚ :=
  ((stock_data.find? (fun s => s.ticker = reference_ticker)).map (fun s => s.prices)).getD []

/-- Largest element of a nonempty rational list (`0` for the empty list). -/
def maxListQ (l : List ℚ) : ℚ :=
  l.foldr max (l.headD 0)

/-! ### Concrete inputs used in counterexamples and witnesses

`spyCE` has 274 closes: constant 1 with a final close of 2, so its strength
is 40 at offset 0 and exactly 0 at offsets 5 and 21 (offsets 63/126/252 have
insufficient history). -/

def spyCE : Stock := ⟨"SPY", "S", "I", 0, "E", List.replicate 273 1 ++ [2]⟩

/-- 274 constant closes: every computable strength is exactly 0. -/
def stockOnes : Stock := ⟨"A", "S", "I", 0, "E", List.replicate 274 1⟩

def dataCE : List Stock := [spyCE, stockOnes]

/-- A single scored record with a valid current RS only. -/
def soloRec : RSRecord := ⟨"A", "S", "I", 0, "E", [some 5, none, none, none, none, none]⟩

def recA1 : RSRecord := ⟨"A", "S", "I", 0, "E", [some 1, none, none, none, none, none]⟩

def recB2 : RSRecord := ⟨"B", "S", "I", 0, "E", [some 2, none, none, none, none, none]⟩

def recC2 : RSRecord := ⟨"C", "S", "I", 0, "E", [some 2, none, none, none, none, none]⟩

/-- Three records whose current RS values are 1, 2, 2: the maximum value is
tied, so `max_rank = 2` while `validCount = 3`. -/
def rows3 : List RSRecord := [recA1, recB2, recC2]

def recB9 : RSRecord := ⟨"B", "S", "I", 0, "E", [some 2, none, none, none, none, none]⟩

def recA9 : RSRecord := ⟨"A", "S", "I", 0, "E", [some 2, none, none, none, none, none]⟩

def recC9 : RSRecord := ⟨"C", "S", "I", 0, "E", [some 1, none, none, none, none, none]⟩

/-- Ticker "B" precedes ticker "A" in input order and both share RS 2. -/
def rows9 : List RSRecord := [recB9, recA9, recC9]

def rowB9 : RankedRow := ⟨recB9, [some 100, none, none, none, none, none], 1⟩

def rowA9 : RankedRow := ⟨recA9, [some 100, none, none, none, none, none], 2⟩

def rowC9 : RankedRow := ⟨recC9, [some 0, none, none, none, none, none], 3⟩

/-- The ranked table produced from `rows9`. -/
def t9 : List RankedRow := [rowB9, rowA9, rowC9]

def pairB9 : RSRecord × List (Option ℤ) := (recB9, [some 100, none, none, none, none, none])

def pairA9 : RSRecord × List (Option ℤ) := (recA9, [some 100, none, none, none, none, none])

def pairC9 : RSRecord × List (Option ℤ) := (recC9, [some 0, none, none, none, none, none])

def recW1 : RSRecord := ⟨"X", "S", "I", 0, "E", [some 1, none, none, none, none, none]⟩

def recW2 : RSRecord := ⟨"Y", "S", "I", 0, "E", [some 2, none, none, none, none, none]⟩

def rowsW : List RSRecord := [recW1, recW2]

def rowW1 : RankedRow := ⟨recW2, [some 100, none, none, none, none, none], 1⟩

def rowW2 : RankedRow := ⟨recW1, [some 0, none, none, none, none, none], 2⟩

/-- The ranked table produced from `rowsW`. -/
def tW : List RankedRow := [rowW1, rowW2]

/-- The record the scorer produces for instrument "A" of `dataCE`. -/
def recCE : RSRecord := ⟨"A", "S", "I", 0, "E", [some 0, none, none, none, none, none]⟩

/-- 274 closes ending at 3: strength 80 at offset 0, 0 at offsets 5 and 21. -/
def stockA3 : Stock := ⟨"A", "S", "I", 0, "E", List.replicate 273 1 ++ [3]⟩

/-- 274 closes ending at 2: strength 40 at offset 0, 0 at offsets 5 and 21. -/
def stockB2 : Stock := ⟨"B", "S", "I", 0, "E", List.replicate 273 1 ++ [2]⟩

def dataC8 : List Stock := [spyCE, stockA3, stockB2]

def recA8 : RSRecord := ⟨"A", "S", "I", 0, "E", [some 200, none, none, none, none, none]⟩

def recB8 : RSRecord := ⟨"B", "S", "I", 0, "E", [some 100, none, none, none, none, none]⟩

def res8 : List RSRecord := [recA8, recB8]

def rowA8 : RankedRow := ⟨recA8, [some 100, none, none, none, none, none], 1⟩

def rowB8 : RankedRow := ⟨recB8, [some 0, none, none, none, none, none], 2⟩

def t8 : List RankedRow := [rowA8, rowB8]

/-- 253 closes ending at 2: only offset 0 is computable for this benchmark. -/
def spy253 : Stock := ⟨"SPY", "S", "I", 0, "E", List.replicate 252 1 ++ [2]⟩

def stock253 : Stock := ⟨"C", "S", "I", 0, "E", List.replicate 253 1⟩

def data10 : List Stock := [spy253, stock253]

set_option maxRecDepth 200000

/-- C6: every price series with fewer than `4 * daysPerQuarter + 1` points
makes `quarters_perf` return `none` (the length guard catches all but the
boundary length `4 * daysPerQuarter`, which the index validity check
catches). -/
theorem quarters_perf_short_none (prices : List ℚ) (dq : ℕ)
    (h : prices.length < 4 * dq + 1) : quarters_perf prices dq = none := by
  unfold quarters_perf
  by_cases h1 : prices.length < dq * 4
  · simp only [if_pos h1]
  · have hlen : prices.length = dq * 4 := by omega
    have hneg : ((prices.length : ℤ) - 4 * (dq : ℤ) - 1) < 0 := by
      rw [hlen]; push_cast; omega
    simp only [if_neg h1]
    rw [if_pos]
    rw [List.any_eq_true]
    exact ⟨(prices.length : ℤ) - 4 * (dq : ℤ) - 1, by simp, by simpa using hneg⟩

/-- C6 witness: a 252-point series is below the 253-point requirement. -/
theorem quarters_perf_short_none_witness :
    quarters_perf (List.replicate 252 (1 : ℚ)) 63 = none :=
  quarters_perf_short_none _ 63 (by simp)

/-- C7: `relative_strength` is `none` when either input is `none` or the
benchmark strength is zero, and otherwise equals `(s / r) * 100`; in
particular it is `100` on equal nonzero inputs. -/
theorem relative_strength_spec :
    (∀ r : Option ℚ, relative_strength none r = none) ∧
    (∀ s : Option ℚ, relative_strength s none = none) ∧
    (∀ x : ℚ, relative_strength (some x) (some 0) = none) ∧
    (∀ x : ℚ, x ≠ 0 → relative_strength (some x) (some x) = some 100) ∧
    (∀ s r : ℚ, r ≠ 0 → relative_strength (some s) (some r) = some (s / r * 100)) := by
  refine ⟨fun r => ?_, fun s => ?_, fun x => ?_, fun x hx => ?_, fun s r hr => ?_⟩
  · cases r <;> rfl
  · cases s <;> rfl
  · simp [relative_strength]
  · simp [relative_strength, hx, div_self hx]
  · simp [relative_strength, hr]

/-- C7 witness: concrete instances of the guarded division. -/
theorem relative_strength_spec_witness :
    relative_strength (some 2) (some 2) = some 100 ∧
    relative_strength (some 3) (some 2) = some (3 / 2 * 100) ∧
    relative_strength (some 5) (some 0) = none :=
  ⟨relative_strength_spec.2.2.2.1 2 (by norm_num),
   relative_strength_spec.2.2.2.2 3 2 (by norm_num),
   relative_strength_spec.2.2.1 5⟩

/-- C2: with exactly one valid instrument at the current offset
(`validCount == 1`), the percentile computation fails instead of assigning
the conventional 100: `max_rank == 1` makes line 226 compute `0/0 = NaN`,
and `astype(int)` raises `ValueError` on a non-finite value. -/
theorem percentile_single_valid_raises :
    (valsAt [soloRec] 0).length = 1 ∧ (calculate_percentiles [soloRec]).isOk = false := by
  with_unfolding_all decide

/-- C5: a run in which the benchmark is present and computable still fails
fatally — `dataCE` leaves a single scored instrument, whose degenerate
percentile column aborts `calculate_percentiles` (the crash of C2), so
"fatal iff benchmark absent or uncomputable" does not hold for the full
run. -/
theorem fatal_only_benchmark_violated :
    (calculate_rs_multi_period dataCE "SPY").isOk = true ∧
    (runRanking dataCE "SPY" none).isOk = false := by
  with_unfolding_all decide

/-- C3 counterexample: in `dataCE` the benchmark strength is exactly zero at
offsets 5 and 21, so instrument "A" has only one non-`none` RS value yet is
retained, because `valid_periods` counts offsets whose RS is `none` due to
the zero-benchmark division guard. -/
theorem scorer_inclusion_counterexample :
    (calculate_rs_multi_period dataCE "SPY").toOption.map
        (fun pr => pr.1.map (fun r => (r.ticker, r.rs.countP Option.isSome))) =
      some [("A", 1)] ∧ ¬ (3 ≤ (1 : ℕ)) := by
  with_unfolding_all decide

/-- C1 counterexample: with current RS values 1, 2, 2 the code reports
percentile 100 for the tied maximum (denominator `max_rank - 1 = 1`), while
the claimed formula `round((rank - 1) / (validCount - 1) * 100)` gives 50. -/
theorem percentile_tiedmax_counterexample :
    (calculate_percentiles rows3).toOption.map
        (fun t => t.map (fun row => (row.record.ticker, row.percentiles.getD 0 none))) =
      some [("B", some 100), ("C", some 100), ("A", some 0)] ∧
    (valsAt rows3 0).length = 3 ∧
    rankOf (valsAt rows3 0) 2 = 2 ∧
    roundHalfEven ((((rankOf (valsAt rows3 0) 2 : ℚ) - 1) /
        (((valsAt rows3 0).length : ℚ) - 1)) * 100) = 50 ∧
    (50 : ℤ) ≠ 100 := by
  with_unfolding_all decide

/-- C9 counterexample: rows "B" and "A" share RS 2 but the sorted output
keeps "B" (the earlier input row) ahead of "A", so ties are not broken by a
ticker-ascending secondary key. -/
theorem tie_order_not_ticker_counterexample :
    (calculate_percentiles rows9).toOption.map
        (fun t => t.map (fun row =>
          (row.record.ticker, row.record.rs.getD 0 none, row.percentiles.getD 0 none))) =
      some [("B", some 2, some 100), ("A", some 2, some 100), ("C", some 1, some 0)] ∧
    "A" < "B" := by
  with_unfolding_all decide

/-- An offset pair contributing to `valid_periods` in particular has a
computable benchmark strength. -/
theorem validPairs_le_refCount (refPrices stockPrices : List ℚ) :
    validPairs refPrices stockPrices ≤
      periods.countP (fun p => (calculate_rs_at_offset refPrices p.2).isSome) := by
  unfold validPairs
  exact List.countP_mono_left (fun p _ hp => ((Bool.and_eq_true _ _).mp hp).1)

/-- C10: when the benchmark strength is computable for fewer than 3 offsets,
no instrument can reach `valid_periods >= 3`, so the scorer output is
empty. -/
theorem benchmark_low_coverage_empty_output
    (data : List Stock) (ref : String) (res : List RSRecord) (ps : List (String × ℕ))
    (refStock : Stock)
    (hfind : data.find? (fun s => s.ticker = ref) = some refStock)
    (hcnt : periods.countP (fun p => (calculate_rs_at_offset refStock.prices p.2).isSome) < 3)
    (hok : calculate_rs_multi_period data ref = .ok (res, ps)) :
    res = [] := by
  unfold calculate_rs_multi_period at hok
  rw [hfind] at hok
  dsimp only at hok
  by_cases hall : periods.all (fun p => (calculate_rs_at_offset refStock.prices p.2).isNone) = true
  · rw [if_pos hall] at hok; cases hok
  · rw [if_neg hall] at hok
    simp only [Except.ok.injEq, Prod.mk.injEq] at hok
    rw [← hok.1, List.filterMap_eq_nil_iff]
    intro s hs
    by_cases ht : s.ticker = ref
    · simp [ht]
    · have hvp : ¬ (3 ≤ validPairs refStock.prices s.prices) := by
        have := validPairs_le_refCount refStock.prices s.prices
        omega
      simp [ht, processStock, hvp]

/-- C10 witness: `spy253` is computable only at offset 0, and the scorer
output over `data10` is indeed empty. -/
theorem benchmark_low_coverage_empty_output_witness :
    ([] : List RSRecord) = [] ∧
    periods.countP (fun p => (calculate_rs_at_offset spy253.prices p.2).isSome) < 3 :=
  ⟨benchmark_low_coverage_empty_output data10 "SPY" [] periods spy253
      (by with_unfolding_all decide) (by with_unfolding_all decide)
      (by with_unfolding_all decide),
   by with_unfolding_all decide⟩

/-- The default of `List.headD` agrees with `List.getD` at index 0. -/
theorem headD_eq_getD {α : Type} (l : List α) (d : α) : l.headD d = l.getD 0 d := by
  cases l <;> rfl

/-- `processStock` keeps a record exactly when the current RS is present and
`valid_periods >= 3`, and the kept record carries `rsValues`. -/
theorem processStock_eq_some_iff (refPrices : List ℚ) (s : Stock) (rec : RSRecord) :
    processStock refPrices s = some rec ↔
      ((rsValues refPrices s.prices).headD none).isSome = true ∧
      3 ≤ validPairs refPrices s.prices ∧
      rec = ⟨s.ticker, s.sector, s.industry, s.market_cap, s.exchange,
             rsValues refPrices s.prices⟩ := by
  unfold processStock
  by_cases hc : ((rsValues refPrices s.prices).headD none).isSome = true ∧
      3 ≤ validPairs refPrices s.prices
  · rw [if_pos (by rw [Bool.and_eq_true]; exact ⟨hc.1, decide_eq_true hc.2⟩)]
    simp only [Option.some.injEq]
    constructor
    · intro h; exact ⟨hc.1, hc.2, h.symm⟩
    · intro h; exact h.2.2.symm
  · have hcond : (((rsValues refPrices s.prices).headD none).isSome &&
        decide (3 ≤ validPairs refPrices s.prices)) ≠ true := by
      intro hand
      rw [Bool.and_eq_true] at hand
      exact hc ⟨hand.1, of_decide_eq_true hand.2⟩
    rw [if_neg hcond]
    constructor
    · intro h; cases h
    · intro h; exact absurd ⟨h.1, h.2.1⟩ hc

/-- C3 amended: an instrument appears in the scorer output only if its
current RS is non-`none` and at least 3 offsets had both a stored benchmark
strength and a computable instrument strength — the code's `valid_periods`,
which also counts offsets whose RS is `none` because the benchmark strength
is zero. -/
theorem scorer_inclusion_rule
    (data : List Stock) (ref : String) (res : List RSRecord) (ps : List (String × ℕ))
    (rec : RSRecord)
    (hok : calculate_rs_multi_period data ref = .ok (res, ps))
    (hmem : rec ∈ res) :
    (rec.rs.getD 0 none).isSome = true ∧
    ∃ s ∈ data, s.ticker ≠ ref ∧
      processStock (refPricesOf data ref) s = some rec ∧
      3 ≤ validPairs (refPricesOf data ref) s.prices := by
  unfold calculate_rs_multi_period at hok
  cases hfind : data.find? (fun s => s.ticker = ref) with
  | none => rw [hfind] at hok; cases hok
  | some refStock =>
    rw [hfind] at hok; dsimp only at hok
    have hrp : refPricesOf data ref = refStock.prices := by
      unfold refPricesOf; rw [hfind]; rfl
    by_cases hall :
        (periods.all fun p => (calculate_rs_at_offset refStock.prices p.2).isNone) = true
    · rw [if_pos hall] at hok; cases hok
    · rw [if_neg hall] at hok
      simp only [Except.ok.injEq, Prod.mk.injEq] at hok
      rw [← hok.1] at hmem
      rw [List.mem_filterMap] at hmem
      obtain ⟨s, hs, hps⟩ := hmem
      by_cases ht : s.ticker = ref
      · simp [ht] at hps
      · rw [if_neg ht] at hps
        have hiff := (processStock_eq_some_iff refStock.prices s rec).mp hps
        refine ⟨?_, s, hs, ht, by rw [hrp]; exact hps, by rw [hrp]; exact hiff.2.1⟩
        rw [hiff.2.2, ← headD_eq_getD]
        exact hiff.1

/-- C3 amended witness: instantiated at `dataCE`, whose record for "A" has a
single non-`none` RS yet satisfies the amended inclusion rule. -/
theorem scorer_inclusion_rule_witness :
    (recCE.rs.getD 0 none).isSome = true ∧
    ∃ s ∈ dataCE, s.ticker ≠ "SPY" ∧
      processStock (refPricesOf dataCE "SPY") s = some recCE ∧
      3 ≤ validPairs (refPricesOf dataCE "SPY") s.prices :=
  scorer_inclusion_rule dataCE "SPY" [recCE] periods recCE
    (by with_unfolding_all decide) (by with_unfolding_all decide)

/-- Unpacks a successful run of the percentile stage: nonempty input, every
column check passed, and the table is the ranked sorted base table. -/
theorem stage_ok_elim {rows : List RSRecord} {t : List RankedRow}
    (h : calculate_percentiles rows = .ok t) :
    rows.isEmpty = false ∧
    (∀ i, i < periods.length → colOK rows i = true) ∧
    t = assignRanks 1 (List.insertionSort sortRel (baseRows rows)) := by
  unfold calculate_percentiles at h
  by_cases he : rows.isEmpty = true
  · rw [if_pos he] at h; cases h
  · rw [if_neg he] at h
    by_cases hall : ((List.range periods.length).all fun i => colOK rows i) = true
    · rw [if_pos hall] at h
      simp only [Except.ok.injEq] at h
      refine ⟨by simpa using he, ?_, h.symm⟩
      intro i hi
      exact List.all_eq_true.mp hall i (List.mem_range.mpr hi)
    · rw [if_neg hall] at h; cases h

/-- Rows of `assignRanks` come from the underlying pair list. -/
theorem mem_assignRanks {k : ℕ} {l : List (RSRecord × List (Option ℤ))} {row : RankedRow}
    (h : row ∈ assignRanks k l) : (row.record, row.percentiles) ∈ l := by
  induction l generalizing k with
  | nil => cases h
  | cons p rest ih =>
    rcases List.mem_cons.mp h with h | h
    · rw [h]; exact List.mem_cons_self _ _
    · exact List.mem_cons_of_mem _ (ih h)

/-- Pairs of `baseRows` carry the row and its columnwise percentiles. -/
theorem mem_baseRows {rows : List RSRecord} {pr : RSRecord × List (Option ℤ)}
    (h : pr ∈ baseRows rows) :
    pr.1 ∈ rows ∧
    pr.2 = (List.range periods.length).map (fun i => percFun rows i pr.1) := by
  unfold baseRows at h
  rw [List.mem_map] at h
  obtain ⟨r, hr, heq⟩ := h
  rw [← heq]
  exact ⟨hr, rfl⟩

/-- Every row of a successful percentile table is an input row paired with
its columnwise percentiles. -/
theorem mem_ranked_structure {rows : List RSRecord} {t : List RankedRow} {row : RankedRow}
    (h : calculate_percentiles rows = .ok t) (hrow : row ∈ t) :
    row.record ∈ rows ∧
    row.percentiles = (List.range periods.length).map (fun i => percFun rows i row.record) := by
  obtain ⟨-, -, ht⟩ := stage_ok_elim h
  rw [ht] at hrow
  have h1 := mem_assignRanks hrow
  have h2 : (row.record, row.percentiles) ∈ baseRows rows :=
    (List.perm_insertionSort sortRel (baseRows rows)).mem_iff.mp h1
  exact mem_baseRows h2

/-- `getD` on a mapped range evaluates the function. -/
theorem getD_range_map {α : Type} (n i : ℕ) (f : ℕ → α) (d : α) (h : i < n) :
    ((List.range n).map f).getD i d = f i := by
  rw [List.getD_eq_getElem?_getD, List.getElem?_map, List.getElem?_range h]
  rfl

/-- The percentile a successful table reports for a row at column `i` is the
columnwise `percFun`. -/
theorem row_percentile_entry {rows : List RSRecord} {t : List RankedRow} {row : RankedRow}
    {i : ℕ} (h : calculate_percentiles rows = .ok t) (hrow : row ∈ t)
    (hi : i < periods.length) :
    row.percentiles.getD i none = percFun rows i row.record := by
  rw [(mem_ranked_structure h hrow).2, getD_range_map _ _ _ _ hi]

/-- Elements never exceed a `foldr max`. -/
theorem le_foldr_max {α : Type} [LinearOrder α] (l : List α) (init x : α)
    (hx : x ∈ l ∨ x = init) : x ≤ l.foldr max init := by
  induction l with
  | nil =>
    rcases hx with h | h
    · cases h
    · exact le_of_eq h
  | cons a t ih =>
    rcases hx with h | h
    · rcases List.mem_cons.mp h with h | h
      · rw [h]; exact le_max_left _ _
      · exact le_trans (ih (Or.inl h)) (le_max_right _ _)
    · exact le_trans (ih (Or.inr h)) (le_max_right _ _)

/-- A `foldr max` is bounded by any common upper bound. -/
theorem foldr_max_le {α : Type} [LinearOrder α] (l : List α) (init m : α)
    (h1 : ∀ x ∈ l, x ≤ m) (h2 : init ≤ m) : l.foldr max init ≤ m := by
  induction l with
  | nil => exact h2
  | cons a t ih =>
    exact max_le (h1 a (List.mem_cons_self _ _))
      (ih (fun x hx => h1 x (List.mem_cons_of_mem _ hx)))

/-- A `foldr max` is an element or the initial value. -/
theorem foldr_max_mem {α : Type} [LinearOrder α] (l : List α) (init : α) :
    l.foldr max init ∈ l ∨ l.foldr max init = init := by
  induction l with
  | nil => exact Or.inr rfl
  | cons a t ih =>
    rcases le_total a (t.foldr max init) with h | h
    · rw [List.foldr_cons, max_eq_right h]
      rcases ih with h2 | h2
      · exact Or.inl (List.mem_cons_of_mem _ h2)
      · exact Or.inr h2
    · rw [List.foldr_cons, max_eq_left h]
      exact Or.inl (List.mem_cons_self _ _)

/-- Every element is at most `maxListQ`. -/
theorem le_maxListQ {l : List ℚ} {x : ℚ} (hx : x ∈ l) : x ≤ maxListQ l :=
  le_foldr_max l (l.headD 0) x (Or.inl hx)

/-- `maxListQ` of a nonempty list is one of its elements. -/
theorem maxListQ_mem {l : List ℚ} (h : l ≠ []) : maxListQ l ∈ l := by
  unfold maxListQ
  rcases foldr_max_mem l (l.headD 0) with h2 | h2
  · exact h2
  · rw [h2]
    cases l with
    | nil => exact absurd rfl h
    | cons a t => exact List.mem_cons_self _ _

/-- The min-rank is monotone in the value. -/
theorem rankOf_le_of_le (vals : List ℚ) {v w : ℚ} (h : v ≤ w) :
    rankOf vals v ≤ rankOf vals w := by
  unfold rankOf
  have := List.countP_mono_left (l := vals)
    (p := fun a => decide (a < v)) (q := fun a => decide (a < w))
    (fun a _ ha => decide_eq_true (lt_of_lt_of_le (of_decide_eq_true ha) h))
  omega

/-- `max_rank` is the min-rank of the column maximum. -/
theorem maxRank_eq_rank_max {vals : List ℚ} (h : vals ≠ []) :
    maxRank vals = rankOf vals (maxListQ vals) := by
  unfold maxRank
  apply le_antisymm
  · apply foldr_max_le
    · intro x hx
      rw [List.mem_map] at hx
      obtain ⟨v, hv, hxv⟩ := hx
      rw [← hxv]
      exact rankOf_le_of_le vals (le_maxListQ hv)
    · exact Nat.zero_le _
  · exact le_foldr_max _ 0 _ (Or.inl (List.mem_map_of_mem _ (maxListQ_mem h)))

/-- Values bounded by `M` split into those below `M` and those equal to it. -/
theorem countP_lt_eq_split (vals : List ℚ) (M : ℚ) (hub : ∀ v ∈ vals, v ≤ M) :
    vals.countP (fun w => w < M) + vals.countP (fun w => w = M) = vals.length := by
  induction vals with
  | nil => rfl
  | cons a t ih =>
    have ha := hub a (List.mem_cons_self _ _)
    have iht := ih (fun v hv => hub v (List.mem_cons_of_mem _ hv))
    rw [List.countP_cons, List.countP_cons, List.length_cons]
    by_cases heq : a = M
    · rw [if_neg (by simp [heq]), if_pos (by simp [heq])]
      omega
    · have hlt : a < M := lt_of_le_of_ne ha heq
      rw [if_pos (by simpa using hlt), if_neg (by simpa using heq)]
      omega

/-- When the maximum is attained exactly once, `max_rank` equals the size of
the valid population. -/
theorem maxRank_eq_length_of_untied {vals : List ℚ} (hne : vals ≠ [])
    (huntied : vals.countP (fun w => w = maxListQ vals) = 1) :
    maxRank vals = vals.length := by
  rw [maxRank_eq_rank_max hne]
  unfold rankOf
  have hsplit := countP_lt_eq_split vals (maxListQ vals) (fun v hv => le_maxListQ hv)
  omega

/-- C1 amended: the reported percentile is
`round((rank - 1) / (maxRank - 1) * 100)`; this agrees with the claimed
`validCount - 1` denominator exactly when the column maximum is untied (the
counterexample shows they differ otherwise).  Rounding is half-to-even as in
numpy. -/
theorem percentile_formula_untied_max
    (rows : List RSRecord) (t : List RankedRow) (i : ℕ) (row : RankedRow) (v : ℚ)
    (hok : calculate_percentiles rows = .ok t)
    (hrow : row ∈ t)
    (hv : row.record.rs.getD i none = some v)
    (hi : i < periods.length)
    (huntied : (valsAt rows i).countP (fun w => w = maxListQ (valsAt rows i)) = 1)
    (hcount : 1 < (valsAt rows i).length) :
    row.percentiles.getD i none =
      some (roundHalfEven ((((rankOf (valsAt rows i) v : ℚ) - 1) /
        (((valsAt rows i).length : ℚ) - 1)) * 100)) := by
  rw [row_percentile_entry hok hrow hi]
  unfold percFun
  rw [hv]
  have hne : valsAt rows i ≠ [] := by
    intro h
    rw [h] at hcount
    simp at hcount
  rw [maxRank_eq_length_of_untied hne huntied]
  rfl

/-- C1 amended witness: in `rowsW` the maximum RS 2 is untied, and the top
row's reported percentile matches the formula. -/
theorem percentile_formula_untied_max_witness :
    rowW1.percentiles.getD 0 none =
      some (roundHalfEven ((((rankOf (valsAt rowsW 0) 2 : ℚ) - 1) /
        (((valsAt rowsW 0).length : ℚ) - 1)) * 100)) :=
  percentile_formula_untied_max rowsW tW 0 rowW1 2
    (by with_unfolding_all decide) (by with_unfolding_all decide)
    (by with_unfolding_all decide) (by with_unfolding_all decide)
    (by with_unfolding_all decide) (by with_unfolding_all decide)

/-- `passesMin` unpacked. -/
theorem passesMin_iff (m : ℤ) (row : RankedRow) :
    passesMin m row = true ↔ ∃ p, row.percentiles.getD 0 none = some p ∧ m ≤ p := by
  unfold passesMin
  cases h : row.percentiles.getD 0 none with
  | none => simp
  | some p => simp

/-- A value stored in a row appears among the column's valid values. -/
theorem mem_valsAt {rows : List RSRecord} {r : RSRecord} {i : ℕ} {v : ℚ}
    (hr : r ∈ rows) (hv : r.rs.getD i none = some v) : v ∈ valsAt rows i := by
  unfold valsAt
  rw [List.mem_filterMap]
  exact ⟨r, hr, hv⟩

/-- `roundHalfEven` never goes below the floor. -/
theorem roundHalfEven_ge_floor (x : ℚ) : ⌊x⌋ ≤ roundHalfEven x := by
  unfold roundHalfEven
  dsimp only
  split_ifs <;> omega

/-- `roundHalfEven` never exceeds the floor plus one. -/
theorem roundHalfEven_le_floor_add_one (x : ℚ) : roundHalfEven x ≤ ⌊x⌋ + 1 := by
  unfold roundHalfEven
  dsimp only
  split_ifs <;> omega

/-- Rounding half to even is monotone. -/
theorem roundHalfEven_mono {a b : ℚ} (h : a ≤ b) : roundHalfEven a ≤ roundHalfEven b := by
  have hflab : ⌊a⌋ ≤ ⌊b⌋ := Int.floor_le_floor h
  by_cases heq : ⌊a⌋ = ⌊b⌋
  · have hfr : a - (⌊a⌋ : ℚ) ≤ b - (⌊b⌋ : ℚ) := by
      rw [heq]
      linarith
    unfold roundHalfEven
    dsimp only
    rw [heq]
    split_ifs <;> first | omega | linarith
  · have hlt : ⌊a⌋ < ⌊b⌋ := lt_of_le_of_ne hflab heq
    calc roundHalfEven a ≤ ⌊a⌋ + 1 := roundHalfEven_le_floor_add_one a
      _ ≤ ⌊b⌋ := by omega
      _ ≤ roundHalfEven b := roundHalfEven_ge_floor b

/-- The stored percentile formula is monotone in the RS value once the
degenerate `max_rank` case is excluded. -/
theorem percVal_mono {rows : List RSRecord} (i : ℕ)
    (h2 : 2 ≤ maxRank (valsAt rows i)) {v w : ℚ} (hvw : v ≤ w) :
    roundHalfEven ((((rankOf (valsAt rows i) v : ℚ) - 1) /
        ((maxRank (valsAt rows i) : ℚ) - 1)) * 100) ≤
    roundHalfEven ((((rankOf (valsAt rows i) w : ℚ) - 1) /
        ((maxRank (valsAt rows i) : ℚ) - 1)) * 100) := by
  apply roundHalfEven_mono
  have hr := rankOf_le_of_le (valsAt rows i) hvw
  have hden : (0 : ℚ) < (maxRank (valsAt rows i) : ℚ) - 1 := by
    have h2q : (2 : ℚ) ≤ (maxRank (valsAt rows i) : ℚ) := by exact_mod_cast h2
    linarith
  have hnum : ((rankOf (valsAt rows i) v : ℚ) - 1) ≤ ((rankOf (valsAt rows i) w : ℚ) - 1) := by
    have hrq : (rankOf (valsAt rows i) v : ℚ) ≤ (rankOf (valsAt rows i) w : ℚ) := by
      exact_mod_cast hr
    linarith
  exact mul_le_mul_of_nonneg_right ((div_le_div_iff_of_pos_right hden).mpr hnum) (by norm_num)

/-- The relation ordering the sorted table carries over to the ranked rows. -/
theorem assignRanks_pairwise_key {l : List (RSRecord × List (Option ℤ))} (k : ℕ)
    (h : l.Pairwise sortRel) :
    (assignRanks k l).Pairwise
      (fun x y : RankedRow => currentKey y.record ≤ currentKey x.record) := by
  induction l generalizing k with
  | nil => exact List.Pairwise.nil
  | cons p rest ih =>
    rcases List.pairwise_cons.mp h with ⟨hp, hrest⟩
    refine List.Pairwise.cons ?_ (ih (k + 1) hrest)
    intro y hy
    exact hp _ (mem_assignRanks hy)

/-- Ranks of a prefix of the ranked rows are consecutive from `k`. -/
theorem takeWhile_assignRanks_map_rank (p : RankedRow → Bool) :
    ∀ (k : ℕ) (l : List (RSRecord × List (Option ℤ))),
    ((assignRanks k l).takeWhile p).map (fun r => r.rank) =
      List.range' k ((assignRanks k l).takeWhile p).length := by
  intro k l
  induction l generalizing k with
  | nil => rfl
  | cons q rest ih =>
    have hstep : assignRanks k (q :: rest) = RankedRow.mk q.1 q.2 k :: assignRanks (k + 1) rest :=
      rfl
    rw [hstep]
    by_cases hq : p (RankedRow.mk q.1 q.2 k) = true
    · rw [List.takeWhile_cons_of_pos hq, List.map_cons, List.length_cons, List.range'_succ,
        ih (k + 1)]
    · rw [List.takeWhile_cons_of_neg (by simpa using hq)]
      rfl

/-- Filtering with a predicate that can only switch from true to false along
the list is taking the initial true segment. -/
theorem filter_eq_takeWhile_antitone {α : Type} (p : α → Bool) :
    ∀ (l : List α), l.Pairwise (fun a b => p b = true → p a = true) →
    l.filter p = l.takeWhile p := by
  intro l hl
  induction l with
  | nil => rfl
  | cons a t ih =>
    rcases List.pairwise_cons.mp hl with ⟨ha, ht⟩
    by_cases hp : p a = true
    · rw [List.filter_cons_of_pos hp, List.takeWhile_cons_of_pos hp, ih ht]
    · rw [List.filter_cons_of_neg (by simpa using hp),
        List.takeWhile_cons_of_neg (by simpa using hp)]
      rw [List.filter_eq_nil_iff]
      intro b hb hpb
      exact hp (ha b hb hpb)

/-- C4: in the filtered output the rows are ordered by current RS descending
and the rank column is exactly `1..N` top to bottom — filtering keeps a
prefix of the sorted table because the stored percentile is monotone in the
current RS. -/
theorem final_table_sorted_ranks_contiguous
    (rows : List RSRecord) (t : List RankedRow) (minP : ℤ)
    (hok : calculate_percentiles rows = .ok t) :
    (filterMin t minP).Pairwise
        (fun a b => currentKey b.record ≤ currentKey a.record) ∧
    (filterMin t minP).map (fun r => r.rank) =
      List.range' 1 (filterMin t minP).length := by
  obtain ⟨hne, hcols, ht⟩ := stage_ok_elim hok
  have hsorted : (List.insertionSort sortRel (baseRows rows)).Pairwise sortRel :=
    List.sorted_insertionSort sortRel (baseRows rows)
  have hpwt : t.Pairwise (fun x y : RankedRow => currentKey y.record ≤ currentKey x.record) := by
    rw [ht]; exact assignRanks_pairwise_key 1 hsorted
  have h0 : (0 : ℕ) < periods.length := by norm_num [periods]
  refine ⟨hpwt.filter _, ?_⟩
  have hmono : t.Pairwise (fun x y => passesMin minP y = true → passesMin minP x = true) := by
    refine List.Pairwise.imp_of_mem ?_ hpwt
    intro x y hx hy hkey hpy
    obtain ⟨p, hp, hmp⟩ := (passesMin_iff minP y).mp hpy
    rw [row_percentile_entry hok hy h0] at hp
    unfold percFun at hp
    cases hvy : y.record.rs.getD 0 none with
    | none => rw [hvy] at hp; cases hp
    | some vy =>
      rw [hvy] at hp
      simp only [Option.map_some', Option.some.injEq] at hp
      have hky : currentKey y.record = (vy : WithBot ℚ) := by
        unfold currentKey; rw [hvy]
      rw [hky] at hkey
      cases hvx : x.record.rs.getD 0 none with
      | none =>
        have hkx : currentKey x.record = ⊥ := by unfold currentKey; rw [hvx]
        rw [hkx] at hkey
        exact absurd hkey (by simp)
      | some vx =>
        have hkx : currentKey x.record = (vx : WithBot ℚ) := by
          unfold currentKey; rw [hvx]
        rw [hkx] at hkey
        have hvyx : vy ≤ vx := by exact_mod_cast hkey
        have hvmem : vy ∈ valsAt rows 0 := mem_valsAt (mem_ranked_structure hok hy).1 hvy
        have hvne : valsAt rows 0 ≠ [] := List.ne_nil_of_mem hvmem
        have hie : (valsAt rows 0).isEmpty = false := by
          cases hval : valsAt rows 0 with
          | nil => exact absurd hval hvne
          | cons c cs => rfl
        have hcol := hcols 0 h0
        unfold colOK at hcol
        rw [hie, Bool.false_or] at hcol
        have h2 : 2 ≤ maxRank (valsAt rows 0) := of_decide_eq_true hcol
        rw [passesMin_iff]
        refine ⟨roundHalfEven ((((rankOf (valsAt rows 0) vx : ℚ) - 1) /
            ((maxRank (valsAt rows 0) : ℚ) - 1)) * 100), ?_, ?_⟩
        · rw [row_percentile_entry hok hx h0]
          unfold percFun
          rw [hvx]
          rfl
        · calc minP ≤ p := hmp
            _ ≤ _ := by rw [← hp]; exact percVal_mono 0 h2 hvyx
  rw [filterMin, filter_eq_takeWhile_antitone _ t hmono, ht]
  exact takeWhile_assignRanks_map_rank _ 1 _

/-- C4 witness: the filtered table over `rowsW` is sorted with contiguous
ranks. -/
theorem final_table_sorted_ranks_contiguous_witness :
    (filterMin tW 70).Pairwise
        (fun a b => currentKey b.record ≤ currentKey a.record) ∧
    (filterMin tW 70).map (fun r => r.rank) =
      List.range' 1 (filterMin tW 70).length :=
  final_table_sorted_ranks_contiguous rowsW tW 70 (by with_unfolding_all decide)

/-- C8: `runRanking` keeps exactly the rows with a current percentile at
least the configured minimum, and an absent configuration defaults to 70. -/
theorem filter_min_percentile_spec
    (data : List Stock) (ref : String) (cfg : Option ℤ) (res : List RSRecord)
    (ps : List (String × ℕ)) (t : List RankedRow) (row : RankedRow)
    (h1 : calculate_rs_multi_period data ref = .ok (res, ps))
    (h2 : calculate_percentiles res = .ok t) :
    runRanking data ref cfg = .ok (filterMin t (cfg.getD 70)) ∧
    runRanking data ref none = .ok (filterMin t 70) ∧
    (row ∈ filterMin t (cfg.getD 70) ↔
      row ∈ t ∧ ∃ p, row.percentiles.getD 0 none = some p ∧ cfg.getD 70 ≤ p) := by
  have hrun : ∀ c : Option ℤ, runRanking data ref c = .ok (filterMin t (c.getD 70)) := by
    intro c
    unfold runRanking
    rw [h1]
    show (calculate_percentiles res).bind _ = _
    rw [h2]
    rfl
  refine ⟨hrun cfg, hrun none, ?_⟩
  unfold filterMin
  rw [List.mem_filter]
  rw [passesMin_iff]

/-- C8 witness: over `dataC8` with no configured minimum, row "A"
(percentile 100) is retained. -/
theorem filter_min_percentile_spec_witness :
    runRanking dataC8 "SPY" none = .ok (filterMin t8 ((none : Option ℤ).getD 70)) ∧
    runRanking dataC8 "SPY" none = .ok (filterMin t8 70) ∧
    (rowA8 ∈ filterMin t8 ((none : Option ℤ).getD 70) ↔
      rowA8 ∈ t8 ∧ ∃ p, rowA8.percentiles.getD 0 none = some p ∧
        (none : Option ℤ).getD 70 ≤ p) :=
  filter_min_percentile_spec dataC8 "SPY" none res8 periods t8 rowA8
    (by with_unfolding_all decide) (by with_unfolding_all decide)

/-- C9 amended: instruments with identical current RS always receive the
same current percentile, and the sort — keyed on the current RS only, with
no secondary key — keeps tied rows in their input order (stability of the
modelled sort). -/
theorem tie_percentile_and_stable_order :
    (∀ (rows : List RSRecord) (t : List RankedRow) (x y : RankedRow),
        calculate_percentiles rows = .ok t → x ∈ t → y ∈ t →
        x.record.rs.getD 0 none = y.record.rs.getD 0 none →
        x.percentiles.getD 0 none = y.percentiles.getD 0 none) ∧
    (∀ (rows : List RSRecord) (a b : RSRecord × List (Option ℤ)),
        sortRel a b → List.Sublist [a, b] (baseRows rows) →
        List.Sublist [a, b] (List.insertionSort sortRel (baseRows rows))) := by
  constructor
  · intro rows t x y hok hx hy hxy
    have h0 : (0 : ℕ) < periods.length := by norm_num [periods]
    rw [row_percentile_entry hok hx h0, row_percentile_entry hok hy h0]
    unfold percFun
    rw [hxy]
  · intro rows a b hab hsub
    exact List.pair_sublist_insertionSort hab hsub

/-- C9 amended witness: the tied rows "B" and "A" of `rows9` report equal
percentiles, and their input order survives the sort. -/
theorem tie_percentile_and_stable_order_witness :
    rowB9.percentiles.getD 0 none = rowA9.percentiles.getD 0 none ∧
    List.Sublist [pairB9, pairA9] (List.insertionSort sortRel (baseRows rows9)) :=
  ⟨tie_percentile_and_stable_order.1 rows9 t9 rowB9 rowA9
      (by with_unfolding_all decide) (by with_unfolding_all decide)
      (by with_unfolding_all decide) (by with_unfolding_all decide),
   tie_percentile_and_stable_order.2 rows9 pairB9 pairA9
      (by with_unfolding_all decide)
      (by rw [show baseRows rows9 = [pairB9, pairA9] ++ [pairC9] from by
            with_unfolding_all decide]
          exact List.sublist_append_left _ _)⟩

end RSCalc
